import Mathlib

/-!
Verification of the text-segmentation engine specified for the icu4x FFI
headers (`ICU4XSentenceBreakIteratorLatin1.h`, `ICU4XSentenceBreakIteratorUtf16.h`,
`diplomat_result_box_ICU4XLineBreakSegmenter_ICU4XError.h`).

The repository excerpt contains only C declarations (opaque handles,
`next`/`destroy` signatures, a tagged-union result type); the segmentation
engine itself is absent.  The definitions below are therefore modelled from
the specification: rule table, classifier, segmentation state machine,
break iterator with `next` returning an offset or the `-1` sentinel, the
fallible segmenter constructor, and the discriminated result wrapper.
-/

namespace ICU4X

/-- Modelled from the spec: segmentation kinds (line/sentence/word); the
kind selector passed to the segmenter constructor.  The constructor itself
is absent from the excerpt (only the result type of
`diplomat_result_box_ICU4XLineBreakSegmenter_ICU4XError` appears). -/
inductive SegKind where
  | line
  | sentence
  | word
deriving DecidableEq, Repr

/-- Modelled from the spec: the error taxonomy `InvalidConfiguration`,
`InvalidInput`, `AllocationFailure` (`ICU4XError` is only an opaque
include in the excerpt). -/
inductive ICU4XError where
  | invalidConfiguration
  | invalidInput
  | allocationFailure
deriving DecidableEq, Repr

/-- Modelled from the spec: a break-property class assigned to a code
point; `other` is the default class for inputs with no entry in the
table. -/
inductive BreakClass where
  | other
  | cls (n : Nat)
deriving DecidableEq, Repr

/-- Modelled from the spec: the immutable rule table — a range-compressed
code-point-to-class mapping, a state-transition matrix
`(state, class) -> (nextState, isBreakBefore)`, and the set of
segmentation kinds the table supports.  The table binary format and
loading are out of scope. -/
structure RuleTable where
  ranges : List (Nat × Nat × Nat)
  transition : Nat → BreakClass → Nat × Bool
  supportedKinds : List SegKind

/-- Modelled from the spec: range lookup in the code-point-to-class
mapping; returns `none` when no range covers the code point. -/
def lookupClass : List (Nat × Nat × Nat) → Nat → Option Nat
  | [], _ => none
  | (lo, hi, k) :: rest, cp =>
      if lo ≤ cp ∧ cp ≤ hi then some k else lookupClass rest cp

/-- Modelled from the spec: `classify(codepoint) -> BreakClass`; total —
a code point with no class in the table maps to the default `other`
class, never an error. -/
def classify (t : RuleTable) (cp : Nat) : BreakClass :=
  match lookupClass t.ranges cp with
  | some k => BreakClass.cls k
  | none => BreakClass.other

/-- Modelled from the spec: the segmenter — a read-only rule-table
reference together with the configured segmentation kind. -/
structure Segmenter where
  table : RuleTable
  kind : SegKind

/-- Modelled from the spec:
`construct(ruleTable, kind) -> Result<Segmenter, ErrorKind>`; fails with
`InvalidConfiguration` when `kind` is unsupported by the supplied table. -/
def Segmenter.construct (t : RuleTable) (k : SegKind) : Except ICU4XError Segmenter :=
  if k ∈ t.supportedKinds then Except.ok ⟨t, k⟩
  else Except.error ICU4XError.invalidConfiguration

/-- Modelled from the spec: the break iterator — a cursor over a decoded
text buffer (one entry per native code unit), with the current scan
position, the current state-machine state, and the
`Active`/`Exhausted` flag. -/
structure BreakIterator where
  table : RuleTable
  buffer : List Nat
  pos : Nat
  state : Nat
  exhausted : Bool

/-- Modelled from the spec: a fresh iterator bound to a buffer — scan
position at buffer start, state machine in its initial state, active. -/
def mkIterator (t : RuleTable) (buf : List Nat) : BreakIterator :=
  ⟨t, buf, 0, 0, false⟩

/-- Modelled from the spec: the single forward pass of the segmentation
state machine — scan the remaining code units, transitioning on each
classified unit, until a transition reports a break before the incoming
unit (boundary at the current offset) or the input ends (end-of-text is
an implicit boundary).  Returns the boundary offset and the machine state
at that offset. -/
def scanBreak (t : RuleTable) : List Nat → Nat → Nat → Nat × Nat
  | [], off, s => (off, s)
  | c :: rest, off, s =>
      let p := t.transition s (classify t c)
      if p.2 then (off, s) else scanBreak t rest (off + 1) p.1

/-- Modelled from the spec: the next boundary strictly after scan
position `pos` — consume the code unit at `pos` (a break before it would
be the boundary already reported at `pos`), then scan forward; `none`
when the scan position is already at the end of the buffer. -/
def nextBoundary (t : RuleTable) (buf : List Nat) (pos s : Nat) : Option (Nat × Nat) :=
  match buf.drop pos with
  | [] => none
  | c :: rest =>
      let p := t.transition s (classify t c)
      some (scanBreak t rest (pos + 1) p.1)

/-- Modelled from the spec: `next(handle*) -> int32` (the
`ICU4XSentenceBreakIteratorLatin1_next` / `..Utf16_next` contract).
When exhausted, returns the `-1` sentinel with no state change; when no
input remains, transitions to exhausted and returns the sentinel; else
returns the next boundary offset and advances the scan position past the
consumed units. -/
def next (it : BreakIterator) : Int × BreakIterator :=
  if it.exhausted then (-1, it)
  else
    match nextBoundary it.table it.buffer it.pos it.state with
    | none => (-1, { it with exhausted := true })
    | some (b, s) => ((b : Int), { it with pos := b, state := s })

/-- The iterator after `n` calls to `next`. -/
def iterate (it : BreakIterator) : Nat → BreakIterator
  | 0 => it
  | n + 1 => (next (iterate it n)).2

/-- The value returned by the `n`-th call to `next` (0-based). -/
def outN (it : BreakIterator) (n : Nat) : Int :=
  (next (iterate it n)).1

/-- The machine state reached by running the transition function from the
initial state over a list of code units. -/
def runState (t : RuleTable) : Nat → List Nat → Nat
  | s, [] => s
  | s, c :: rest => runState t (t.transition s (classify t c)).1 rest

/-- The machine state after consuming the first `i` code units of the
buffer, starting from the initial state. -/
def stateAt (t : RuleTable) (buf : List Nat) (i : Nat) : Nat :=
  runState t 0 (buf.take i)

/-- Whether the full-run state machine reports a break before the code
unit at index `i` of the buffer. -/
def breakAt (t : RuleTable) (buf : List Nat) (i : Nat) : Bool :=
  match buf.drop i with
  | [] => false
  | c :: _ => (t.transition (stateAt t buf i) (classify t c)).2

/-- Whether offset `i` is a boundary of the buffer: the end of a
nonempty buffer (end-of-text implicit boundary), or an interior position
where the machine breaks before the incoming unit. -/
def isBoundary (t : RuleTable) (buf : List Nat) (i : Nat) : Bool :=
  if buf.length = 0 then false
  else if i = buf.length then true
  else if 0 < i ∧ i < buf.length then breakAt t buf i
  else false

/-- Modelled from the spec: the text encodings of the visible iterator
variants (Latin-1 single-byte units, UTF-16 two-byte units). -/
inductive TextEncoding where
  | latin1
  | utf16
deriving DecidableEq, Repr

/-- Modelled from the spec: whether a raw byte buffer has a valid length
for the stated encoding — UTF-16 requires an even byte count; Latin-1
imposes no length constraint. -/
def validBuffer (enc : TextEncoding) (bytes : List Nat) : Bool :=
  match enc with
  | TextEncoding.utf16 => bytes.length % 2 == 0
  | TextEncoding.latin1 => true

/-- Modelled from the spec: pair up bytes into UTF-16 code units. -/
def decodeUtf16 : List Nat → List Nat
  | b1 :: b2 :: rest => (b1 * 256 + b2) :: decodeUtf16 rest
  | _ => []

/-- Modelled from the spec:
`createIterator(buffer, encoding) -> BreakIterator`; an odd-length UTF-16
byte buffer fails with `InvalidInput` at this call (eagerly), every
encoding-valid buffer succeeds. -/
def Segmenter.createIterator (seg : Segmenter) (bytes : List Nat) (enc : TextEncoding) :
    Except ICU4XError BreakIterator :=
  match enc with
  | TextEncoding.latin1 => Except.ok (mkIterator seg.table bytes)
  | TextEncoding.utf16 =>
      if bytes.length % 2 = 0 then Except.ok (mkIterator seg.table (decodeUtf16 bytes))
      else Except.error ICU4XError.invalidInput

/-- The C-side tagged union
`diplomat_result_box_ICU4XLineBreakSegmenter_ICU4XError`: a payload that
is either the constructed segmenter handle or an error code, plus the
`is_ok` discriminant.  The `Sum` payload models the union storage holding
exactly one live variant. -/
structure diplomat_result_box_ICU4XLineBreakSegmenter_ICU4XError where
  payload : Segmenter ⊕ ICU4XError
  is_ok : Bool

/-- Modelled from the spec: wrap a construction outcome into the
tagged-union FFI result — `is_ok` true with the handle in `ok`, or
`is_ok` false with the code in `err`. -/
def wrapConstructResult :
    Except ICU4XError Segmenter → diplomat_result_box_ICU4XLineBreakSegmenter_ICU4XError
  | Except.ok s => ⟨Sum.inl s, true⟩
  | Except.error e => ⟨Sum.inr e, false⟩

/-- Modelled from the spec: the FFI-level segmenter constructor returning
the tagged-union result. -/
def ICU4XLineBreakSegmenter_create (t : RuleTable) (k : SegKind) :
    diplomat_result_box_ICU4XLineBreakSegmenter_ICU4XError :=
  wrapConstructResult (Segmenter.construct t k)

/-- A sample concrete rule table used by witnesses: letters A–Z form
class 1 which continues a segment; anything else breaks before it. -/
def T0 : RuleTable where
  ranges := [(65, 90, 1)]
  transition := fun s c =>
    match c with
    | BreakClass.cls 1 => (s + 1, false)
    | _ => (0, true)
  supportedKinds := [SegKind.sentence]

/-- A sample concrete segmenter used by witnesses. -/
def S0 : Segmenter where
  table := T0
  kind := SegKind.sentence

/-- The first `n` values produced by driving a single iterator with
`next`. -/
def soloOuts (it : BreakIterator) : Nat → List Int
  | 0 => []
  | n + 1 => (next it).1 :: soloOuts (next it).2 n

/-- Two independent iterators driven under an arbitrary interleaving
schedule (`true` steps the first iterator, `false` the second); returns
the values each iterator produced, in order.  Models two contexts
driving separate iterators over the same immutable data. -/
def runPairOuts : List Bool → BreakIterator → BreakIterator → List Int × List Int
  | [], _, _ => ([], [])
  | true :: rest, i1, i2 =>
      let r := runPairOuts rest (next i1).2 i2
      ((next i1).1 :: r.1, r.2)
  | false :: rest, i1, i2 =>
      let r := runPairOuts rest i1 (next i2).2
      (r.1, (next i2).1 :: r.2)

/-- The iterator invariant: the handle still references the table and
buffer it was constructed over, the machine state is the state of the
full run over the consumed prefix, and the scan position is inside the
buffer. -/
def Inv (t : RuleTable) (buf : List Nat) (it : BreakIterator) : Prop :=
  it.table = t ∧ it.buffer = buf ∧ it.state = stateAt t buf it.pos ∧ it.pos ≤ buf.length

theorem scanBreak_ge (t : RuleTable) :
    ∀ (rem : List Nat) (off s : Nat), off ≤ (scanBreak t rem off s).1 := by
  intro rem
  induction rem with
  | nil => intro off s; simp [scanBreak]
  | cons c rest ih =>
      intro off s
      simp only [scanBreak]
      split
      · exact Nat.le_refl off
      · exact Nat.le_trans (Nat.le_succ off) (ih (off + 1) _)

theorem scanBreak_le (t : RuleTable) :
    ∀ (rem : List Nat) (off s : Nat), (scanBreak t rem off s).1 ≤ off + rem.length := by
  intro rem
  induction rem with
  | nil => intro off s; simp [scanBreak]
  | cons c rest ih =>
      intro off s
      simp only [scanBreak]
      split
      · exact Nat.le_add_right off _
      · calc (scanBreak t rest (off + 1) _).1 ≤ off + 1 + rest.length := ih _ _
          _ = off + (c :: rest).length := by simp [List.length_cons]; omega

theorem runState_append (t : RuleTable) :
    ∀ (l1 l2 : List Nat) (s : Nat),
      runState t s (l1 ++ l2) = runState t (runState t s l1) l2 := by
  intro l1
  induction l1 with
  | nil => intro l2 s; rfl
  | cons c rest ih => intro l2 s; simp only [List.cons_append, runState]; exact ih l2 _

theorem take_succ_of_drop :
    ∀ (l : List Nat) (n : Nat) (c : Nat) (rest : List Nat),
      l.drop n = c :: rest → l.take (n + 1) = l.take n ++ [c] := by
  intro l
  induction l with
  | nil => intro n c rest h; simp at h
  | cons x xs ih =>
      intro n c rest h
      cases n with
      | zero => simp at h ⊢; exact h.1
      | succ m =>
          simp only [List.drop_succ_cons] at h
          simp only [List.take_succ_cons, List.cons_append]
          rw [ih m c rest h]

theorem drop_succ_of_drop :
    ∀ (l : List Nat) (n : Nat) (c : Nat) (rest : List Nat),
      l.drop n = c :: rest → l.drop (n + 1) = rest := by
  intro l
  induction l with
  | nil => intro n c rest h; simp at h
  | cons x xs ih =>
      intro n c rest h
      cases n with
      | zero => simp at h ⊢; exact h.2
      | succ m =>
          simp only [List.drop_succ_cons] at h ⊢
          exact ih m c rest h

theorem lt_length_of_drop_cons {l : List Nat} {n c : Nat} {rest : List Nat}
    (h : l.drop n = c :: rest) : n < l.length := by
  by_contra hn
  rw [List.drop_eq_nil_of_le (Nat.le_of_not_lt hn)] at h
  exact List.noConfusion h

theorem stateAt_succ (t : RuleTable) (buf : List Nat) (pos c : Nat) (rest : List Nat)
    (h : buf.drop pos = c :: rest) :
    stateAt t buf (pos + 1) = (t.transition (stateAt t buf pos) (classify t c)).1 := by
  unfold stateAt
  rw [take_succ_of_drop buf pos c rest h, runState_append]
  rfl

theorem scanBreak_spec (t : RuleTable) (buf : List Nat) :
    ∀ (rem : List Nat) (off s : Nat),
      rem = buf.drop off → s = stateAt t buf off → 0 < off → off ≤ buf.length →
      isBoundary t buf (scanBreak t rem off s).1 = true ∧
      (scanBreak t rem off s).2 = stateAt t buf (scanBreak t rem off s).1 ∧
      (scanBreak t rem off s).1 ≤ buf.length := by
  intro rem
  induction rem with
  | nil =>
      intro off s hrem hs hpos hle
      have hlen : buf.length ≤ off := by
        by_contra hlt
        have : buf.drop off ≠ [] := by
          intro hnil
          have := List.length_drop off buf ▸ congrArg List.length hnil
          simp at this
          omega
        exact this hrem.symm
      have hoff : off = buf.length := Nat.le_antisymm hle hlen
      refine ⟨?_, ?_, ?_⟩
      · have hne : buf.length ≠ 0 := by omega
        simp only [scanBreak, isBoundary]
        rw [if_neg hne, if_pos hoff]
      · simpa [scanBreak] using hs
      · simpa [scanBreak] using hle
  | cons c rest ih =>
      intro off s hrem hs hpos hle
      have hlt : off < buf.length := lt_length_of_drop_cons hrem.symm
      simp only [scanBreak]
      split
      · -- break before `c`: boundary at `off`
        rename_i hbrk
        refine ⟨?_, hs, Nat.le_of_lt hlt⟩
        simp only [isBoundary]
        rw [if_neg (by omega), if_neg (by omega), if_pos ⟨hpos, hlt⟩]
        simp only [breakAt, ← hrem]
        rw [← hs]
        exact hbrk
      · -- no break: consume `c` and continue
        have hdrop : buf.drop (off + 1) = rest := drop_succ_of_drop buf off c rest hrem.symm
        have hstate : (t.transition s (classify t c)).1 = stateAt t buf (off + 1) := by
          rw [hs, ← stateAt_succ t buf off c rest hrem.symm]
        exact ih (off + 1) _ hdrop.symm hstate (Nat.succ_pos off) hlt

theorem nextBoundary_none_iff (t : RuleTable) (buf : List Nat) (pos s : Nat) :
    nextBoundary t buf pos s = none ↔ buf.length ≤ pos := by
  unfold nextBoundary
  constructor
  · intro h
    by_contra hlt
    rcases List.exists_cons_of_ne_nil
        (List.ne_nil_of_length_pos (by rw [List.length_drop]; omega) :
          buf.drop pos ≠ []) with ⟨c, rest, hcr⟩
    rw [hcr] at h
    simp at h
  · intro h
    rw [List.drop_eq_nil_of_le h]

theorem nextBoundary_some_bounds (t : RuleTable) (buf : List Nat) (pos s b s2 : Nat)
    (h : nextBoundary t buf pos s = some (b, s2)) : pos < b ∧ b ≤ buf.length := by
  unfold nextBoundary at h
  rcases hcr : buf.drop pos with _ | ⟨c, rest⟩
  · rw [hcr] at h; exact absurd h (by simp)
  · rw [hcr] at h
    simp only [Option.some.injEq] at h
    have hb : (scanBreak t rest (pos + 1) (t.transition s (classify t c)).1).1 = b :=
      congrArg Prod.fst h
    constructor
    · exact Nat.lt_of_lt_of_le (Nat.lt_succ_self pos) (hb ▸ scanBreak_ge t rest (pos + 1) _)
    · have hlt : pos < buf.length := lt_length_of_drop_cons hcr
      have hrest : rest.length = buf.length - (pos + 1) := by
        have := drop_succ_of_drop buf pos c rest hcr
        rw [← this, List.length_drop]
      have hup := scanBreak_le t rest (pos + 1) (t.transition s (classify t c)).1
      rw [hb] at hup
      omega

theorem nextBoundary_some_spec (t : RuleTable) (buf : List Nat) (pos s b s2 : Nat)
    (hs : s = stateAt t buf pos) (h : nextBoundary t buf pos s = some (b, s2)) :
    pos < b ∧ b ≤ buf.length ∧ isBoundary t buf b = true ∧ s2 = stateAt t buf b := by
  obtain ⟨hlt, hle⟩ := nextBoundary_some_bounds t buf pos s b s2 h
  unfold nextBoundary at h
  rcases hcr : buf.drop pos with _ | ⟨c, rest⟩
  · rw [hcr] at h; exact absurd h (by simp)
  · rw [hcr] at h
    simp only [Option.some.injEq] at h
    have hdrop : buf.drop (pos + 1) = rest := drop_succ_of_drop buf pos c rest hcr
    have hstate : (t.transition s (classify t c)).1 = stateAt t buf (pos + 1) := by
      rw [hs, ← stateAt_succ t buf pos c rest hcr]
    have hposlt : pos < buf.length := lt_length_of_drop_cons hcr
    have hspec := scanBreak_spec t buf rest (pos + 1) (t.transition s (classify t c)).1
      hdrop.symm hstate (Nat.succ_pos pos) hposlt
    rw [h] at hspec
    exact ⟨hlt, hle, hspec.1, hspec.2.1⟩

theorem next_of_exhausted (it : BreakIterator) (h : it.exhausted = true) :
    next it = (-1, it) := by
  simp [next, h]

theorem next_snd_exhausted (it : BreakIterator) (h : (next it).1 = -1) :
    (next it).2.exhausted = true := by
  unfold next at h ⊢
  by_cases hexh : it.exhausted
  · simp [hexh]
  · simp only [hexh, if_false, Bool.false_eq_true] at h ⊢
    rcases hnb : nextBoundary it.table it.buffer it.pos it.state with _ | ⟨b, s2⟩
    · simp [hnb]
    · rw [hnb] at h
      simp at h

theorem next_fst_of_end (it : BreakIterator) (h : it.buffer.length ≤ it.pos) :
    (next it).1 = -1 := by
  unfold next
  by_cases hexh : it.exhausted
  · simp [hexh]
  · simp only [hexh, Bool.false_eq_true, if_false]
    rw [(nextBoundary_none_iff it.table it.buffer it.pos it.state).2 h]

theorem next_of_ne (it : BreakIterator) (h : (next it).1 ≠ -1) :
    ∃ b s2, nextBoundary it.table it.buffer it.pos it.state = some (b, s2) ∧
      (next it).1 = (b : Int) ∧ (next it).2 = { it with pos := b, state := s2 } ∧
      it.exhausted = false := by
  unfold next at h ⊢
  by_cases hexh : it.exhausted
  · simp [hexh] at h
  · simp only [hexh, Bool.false_eq_true, if_false] at h ⊢
    rcases hnb : nextBoundary it.table it.buffer it.pos it.state with _ | ⟨b, s2⟩
    · rw [hnb] at h; simp at h
    · exact ⟨b, s2, rfl, rfl, rfl, by simp [hexh]⟩

theorem next_pos_mono (it : BreakIterator) : it.pos ≤ (next it).2.pos := by
  by_cases h : (next it).1 = -1
  · unfold next at h ⊢
    by_cases hexh : it.exhausted
    · simp [hexh]
    · simp only [hexh, Bool.false_eq_true, if_false] at h ⊢
      rcases hnb : nextBoundary it.table it.buffer it.pos it.state with _ | ⟨b, s2⟩
      · simp [hnb]
      · rw [hnb] at h; simp at h
  · obtain ⟨b, s2, hnb, _, hit, _⟩ := next_of_ne it h
    rw [hit]
    exact Nat.le_of_lt (nextBoundary_some_bounds _ _ _ _ _ _ hnb).1

theorem Inv_mk (t : RuleTable) (buf : List Nat) : Inv t buf (mkIterator t buf) :=
  ⟨rfl, rfl, rfl, Nat.zero_le _⟩

theorem Inv_next (t : RuleTable) (buf : List Nat) (it : BreakIterator)
    (h : Inv t buf it) : Inv t buf (next it).2 := by
  obtain ⟨ht, hb, hs, hp⟩ := h
  by_cases hne : (next it).1 = -1
  · unfold next at hne ⊢
    by_cases hexh : it.exhausted
    · simpa [hexh] using ⟨ht, hb, hs, hp⟩
    · simp only [hexh, Bool.false_eq_true, if_false] at hne ⊢
      rcases hnb : nextBoundary it.table it.buffer it.pos it.state with _ | ⟨b, s2⟩
      · exact ⟨ht, hb, hs, hp⟩
      · rw [hnb] at hne; simp at hne
  · obtain ⟨b, s2, hnb, _, hit, _⟩ := next_of_ne it hne
    rw [ht, hb, hs] at hnb
    have hspec := nextBoundary_some_spec t buf it.pos (stateAt t buf it.pos) b s2 rfl hnb
    rw [hit]
    exact ⟨ht, hb, hspec.2.2.2, hspec.2.1⟩

theorem Inv_iterate (t : RuleTable) (buf : List Nat) (n : Nat) :
    Inv t buf (iterate (mkIterator t buf) n) := by
  induction n with
  | zero => exact Inv_mk t buf
  | succ m ih => exact Inv_next t buf _ ih

theorem iterate_succ (it : BreakIterator) (n : Nat) :
    iterate it (n + 1) = (next (iterate it n)).2 := rfl

theorem outN_def (it : BreakIterator) (n : Nat) : outN it n = (next (iterate it n)).1 := rfl

theorem pos_progress (t : RuleTable) (buf : List Nat) (n : Nat) :
    (iterate (mkIterator t buf) n).exhausted = true ∨ n ≤ (iterate (mkIterator t buf) n).pos := by
  induction n with
  | zero => exact Or.inr (Nat.zero_le _)
  | succ m ih =>
      rcases ih with hexh | hpos
      · left
        rw [iterate_succ, next_of_exhausted _ hexh]
        exact hexh
      · by_cases hneg : (next (iterate (mkIterator t buf) m)).1 = -1
        · exact Or.inl (iterate_succ _ m ▸ next_snd_exhausted _ hneg)
        · obtain ⟨b, s2, hnb, _, hit, _⟩ := next_of_ne _ hneg
          right
          rw [iterate_succ, hit]
          have := (nextBoundary_some_bounds _ _ _ _ _ _ hnb).1
          simp only
          omega

/-- Claim C1: repeated `next` calls on an iterator yield a strictly
increasing sequence of non-sentinel boundary offsets, followed by the
sentinel; every call after a sentinel returns the sentinel again with no
change to the iterator's state, and the scan position never decreases
across any `next` call.  (The sentinel is guaranteed to occur: by call
index `buf.length` the output is `-1`.) -/
theorem breakIterator_monotone_sentinel (t : RuleTable) (buf : List Nat) (n : Nat) :
    (iterate (mkIterator t buf) n).pos ≤ (iterate (mkIterator t buf) (n + 1)).pos ∧
    (outN (mkIterator t buf) n ≠ -1 → outN (mkIterator t buf) (n + 1) ≠ -1 →
      outN (mkIterator t buf) n < outN (mkIterator t buf) (n + 1)) ∧
    (outN (mkIterator t buf) n = -1 →
      outN (mkIterator t buf) (n + 1) = -1 ∧
      iterate (mkIterator t buf) (n + 2) = iterate (mkIterator t buf) (n + 1)) ∧
    outN (mkIterator t buf) buf.length = -1 := by
  refine ⟨?_, ?_, ?_, ?_⟩
  · rw [iterate_succ]
    exact next_pos_mono _
  · intro hn hn1
    obtain ⟨b, s2, hnb, hfst, hit, _⟩ := next_of_ne _ hn
    obtain ⟨b2, s3, hnb2, hfst2, hit2, _⟩ := next_of_ne _ hn1
    rw [outN_def, hfst, outN_def, hfst2]
    have hb2 := (nextBoundary_some_bounds _ _ _ _ _ _ hnb2).1
    have hpos : (iterate (mkIterator t buf) (n + 1)).pos = b := by
      rw [iterate_succ, hit]
    rw [hpos] at hb2
    exact_mod_cast hb2
  · intro hn
    have hexh : (iterate (mkIterator t buf) (n + 1)).exhausted = true :=
      iterate_succ _ n ▸ next_snd_exhausted _ hn
    have hstep := next_of_exhausted _ hexh
    constructor
    · rw [outN_def, hstep]
    · rw [iterate_succ _ (n + 1), hstep]
  · rcases pos_progress t buf buf.length with hexh | hpos
    · rw [outN_def, next_of_exhausted _ hexh]
    · have hinv := Inv_iterate t buf buf.length
      rw [outN_def]
      exact next_fst_of_end _ (by rw [hinv.2.1]; exact hpos)

/-- Claim C1 witness: over the sample table and the buffer `[65]`, the
first call returns a non-sentinel, the second returns the sentinel, and
from then on the sentinel repeats with the iterator state unchanged. -/
theorem breakIterator_monotone_sentinel_witness :
    outN (mkIterator T0 [65]) 2 = -1 ∧
    iterate (mkIterator T0 [65]) 3 = iterate (mkIterator T0 [65]) 2 :=
  (breakIterator_monotone_sentinel T0 [65] 1).2.2.1 rfl

/-- Claim C7: over the empty buffer, the very first `next` call returns
the sentinel: the boundary sequence is empty. -/
theorem empty_buffer_first_next_sentinel (t : RuleTable) :
    outN (mkIterator t []) 0 = -1 := rfl

/-- Claim C8: over a single-character buffer, `next` returns the
buffer's end offset (1, in native units) exactly once, and the
immediately following call returns the sentinel. -/
theorem single_char_one_boundary (t : RuleTable) (c : Nat) :
    outN (mkIterator t [c]) 0 = (([c] : List Nat).length : Int) ∧
    outN (mkIterator t [c]) 1 = -1 :=
  ⟨rfl, rfl⟩

/-- Claim C2: every `next` call returns either the sentinel `-1` or the
offset of a boundary of the buffer, measured from the buffer start in
the buffer's native units (so in particular within the buffer). -/
theorem next_returns_boundary_or_sentinel (t : RuleTable) (buf : List Nat) (n : Nat) :
    outN (mkIterator t buf) n = -1 ∨
    ∃ b : Nat, outN (mkIterator t buf) n = (b : Int) ∧ isBoundary t buf b = true ∧
      b ≤ buf.length := by
  by_cases h : outN (mkIterator t buf) n = -1
  · exact Or.inl h
  · right
    obtain ⟨b, s2, hnb, hfst, _, _⟩ := next_of_ne _ h
    obtain ⟨ht, hb, hs, hp⟩ := Inv_iterate t buf n
    rw [ht, hb, hs] at hnb
    have hspec := nextBoundary_some_spec t buf _ _ b s2 rfl hnb
    exact ⟨b, by rw [outN_def, hfst], hspec.2.2.1, hspec.2.1⟩

/-- Claim C10: assuming the buffer fits addressable int32 range, every
non-sentinel value returned by `next` is a nonnegative offset strictly
below `2^31`, hence distinct from the sentinel `-1`. -/
theorem next_offsets_fit_int32 (t : RuleTable) (buf : List Nat) (n : Nat)
    (h : buf.length < 2 ^ 31) :
    outN (mkIterator t buf) n = -1 ∨
    (0 ≤ outN (mkIterator t buf) n ∧ outN (mkIterator t buf) n < 2 ^ 31 ∧
      outN (mkIterator t buf) n ≠ -1) := by
  by_cases hne : outN (mkIterator t buf) n = -1
  · exact Or.inl hne
  · right
    obtain ⟨b, s2, hnb, hfst, _, _⟩ := next_of_ne _ hne
    obtain ⟨ht, hbuf, _, _⟩ := Inv_iterate t buf n
    rw [ht, hbuf] at hnb
    have hble := (nextBoundary_some_bounds _ _ _ _ _ _ hnb).2
    rw [outN_def, hfst]
    have hblt : b < 2 ^ 31 := Nat.lt_of_le_of_lt hble h
    refine ⟨Int.natCast_nonneg b, ?_, ?_⟩
    · exact_mod_cast hblt
    · intro hcontra
      omega

/-- Claim C10 witness: the sample buffer `[65]` fits int32 range, and
the first call's result is the non-sentinel offset 1. -/
theorem next_offsets_fit_int32_witness :
    outN (mkIterator T0 [65]) 0 = -1 ∨
    (0 ≤ outN (mkIterator T0 [65]) 0 ∧ outN (mkIterator T0 [65]) 0 < 2 ^ 31 ∧
      outN (mkIterator T0 [65]) 0 ≠ -1) :=
  next_offsets_fit_int32 T0 [65] 0 (by norm_num)

/-- Claim C3: constructing a segmenter with a kind unsupported by the
supplied table fails with `InvalidConfiguration`, and no segmenter is
produced. -/
theorem construct_unsupported_fails (t : RuleTable) (k : SegKind)
    (h : k ∉ t.supportedKinds) :
    Segmenter.construct t k = Except.error ICU4XError.invalidConfiguration ∧
    ∀ s : Segmenter, Segmenter.construct t k ≠ Except.ok s := by
  have he : Segmenter.construct t k = Except.error ICU4XError.invalidConfiguration := by
    simp [Segmenter.construct, h]
  exact ⟨he, fun s hcontra => by rw [he] at hcontra; exact Except.noConfusion hcontra⟩

/-- Claim C3 witness: the sample table supports only sentence
segmentation, so constructing a line segmenter over it fails. -/
theorem construct_unsupported_fails_witness :
    Segmenter.construct T0 SegKind.line = Except.error ICU4XError.invalidConfiguration :=
  (construct_unsupported_fails T0 SegKind.line (by decide)).1

/-- Claim C4: creating an iterator over a UTF-16 byte buffer of odd
length fails with `InvalidInput` at the `createIterator` call itself,
while every encoding-valid buffer yields an iterator. -/
theorem createIterator_odd_utf16_invalid (seg : Segmenter) (bytes : List Nat) :
    (bytes.length % 2 = 1 →
      seg.createIterator bytes TextEncoding.utf16 = Except.error ICU4XError.invalidInput) ∧
    (∀ enc, validBuffer enc bytes = true →
      ∃ it, seg.createIterator bytes enc = Except.ok it) := by
  constructor
  · intro hodd
    have : ¬ bytes.length % 2 = 0 := by omega
    simp [Segmenter.createIterator, this]
  · intro enc hvalid
    cases enc
    · exact ⟨_, rfl⟩
    · simp only [validBuffer, beq_iff_eq] at hvalid
      refine ⟨mkIterator seg.table (decodeUtf16 bytes), ?_⟩
      simp [Segmenter.createIterator, hvalid]

/-- Claim C4 witness: over the sample segmenter, a one-byte UTF-16
buffer is rejected eagerly and a two-byte one is accepted. -/
theorem createIterator_odd_utf16_invalid_witness :
    S0.createIterator [1] TextEncoding.utf16 = Except.error ICU4XError.invalidInput ∧
    ∃ it, S0.createIterator [1, 2] TextEncoding.utf16 = Except.ok it :=
  ⟨(createIterator_odd_utf16_invalid S0 [1]).1 rfl,
   (createIterator_odd_utf16_invalid S0 [1, 2]).2 TextEncoding.utf16 rfl⟩

/-- Claim C5: the tagged-union construction result has exactly one valid
variant as selected by the `is_ok` discriminant — the ok payload when
`is_ok` is true (and no error code), the error code when `is_ok` is
false (and no ok payload); never both. -/
theorem result_discriminant_exclusive (t : RuleTable) (k : SegKind) :
    ((ICU4XLineBreakSegmenter_create t k).is_ok = true →
      (∃ s, (ICU4XLineBreakSegmenter_create t k).payload = Sum.inl s) ∧
      ∀ e, (ICU4XLineBreakSegmenter_create t k).payload ≠ Sum.inr e) ∧
    ((ICU4XLineBreakSegmenter_create t k).is_ok = false →
      (∃ e, (ICU4XLineBreakSegmenter_create t k).payload = Sum.inr e) ∧
      ∀ s, (ICU4XLineBreakSegmenter_create t k).payload ≠ Sum.inl s) := by
  rcases h : Segmenter.construct t k with e | s
  · simp [ICU4XLineBreakSegmenter_create, wrapConstructResult, h]
  · simp [ICU4XLineBreakSegmenter_create, wrapConstructResult, h]

/-- Claim C5 witness: constructing a sentence segmenter over the sample
table succeeds, and the resulting tagged union holds the ok handle and
no error code. -/
theorem result_discriminant_exclusive_witness :
    (∃ s, (ICU4XLineBreakSegmenter_create T0 SegKind.sentence).payload = Sum.inl s) ∧
    ∀ e, (ICU4XLineBreakSegmenter_create T0 SegKind.sentence).payload ≠ Sum.inr e :=
  (result_discriminant_exclusive T0 SegKind.sentence).1 (by decide)

/-- Claim C6: classification is total — every code point receives a
class, with code points not covered by the table mapped to the default
`other` class rather than an error — and a `next` call never signals an
error: its result is the sentinel or a nonnegative offset. -/
theorem classify_total_default (t : RuleTable) (cp : Nat) (it : BreakIterator) :
    ((∃ k, lookupClass t.ranges cp = some k ∧ classify t cp = BreakClass.cls k) ∨
      (lookupClass t.ranges cp = none ∧ classify t cp = BreakClass.other)) ∧
    ((next it).1 = -1 ∨ 0 ≤ (next it).1) := by
  constructor
  · rcases h : lookupClass t.ranges cp with _ | k
    · exact Or.inr ⟨rfl, by simp [classify, h]⟩
    · exact Or.inl ⟨k, rfl, by simp [classify, h]⟩
  · by_cases hne : (next it).1 = -1
    · exact Or.inl hne
    · obtain ⟨b, s2, _, hfst, _, _⟩ := next_of_ne _ hne
      exact Or.inr (hfst ▸ Int.natCast_nonneg b)

theorem runPairOuts_eq (sched : List Bool) :
    ∀ i1 i2 : BreakIterator,
      runPairOuts sched i1 i2 =
        (soloOuts i1 (sched.count true), soloOuts i2 (sched.count false)) := by
  induction sched with
  | nil => intro i1 i2; simp [runPairOuts, soloOuts]
  | cons b rest ih =>
      intro i1 i2
      cases b
      · simp [runPairOuts, ih, List.count_cons, soloOuts]
      · simp [runPairOuts, ih, List.count_cons, soloOuts]

/-- Claim C9: two independent iterators over the same buffer with the
same configuration, driven under any interleaving schedule, each produce
exactly the outputs of a solo run — neither is affected by the other —
and when driven the same number of steps they produce identical
boundary-offset sequences. -/
theorem independent_iterators_deterministic (t : RuleTable) (buf : List Nat)
    (sched : List Bool) :
    runPairOuts sched (mkIterator t buf) (mkIterator t buf) =
      (soloOuts (mkIterator t buf) (sched.count true),
        soloOuts (mkIterator t buf) (sched.count false)) ∧
    (sched.count true = sched.count false →
      (runPairOuts sched (mkIterator t buf) (mkIterator t buf)).1 =
        (runPairOuts sched (mkIterator t buf) (mkIterator t buf)).2) := by
  refine ⟨runPairOuts_eq sched _ _, fun h => ?_⟩
  rw [runPairOuts_eq sched, h]

/-- Claim C9 witness: under the alternating schedule both iterators over
`[65]` produce the same outputs. -/
theorem independent_iterators_deterministic_witness :
    (runPairOuts [true, false] (mkIterator T0 [65]) (mkIterator T0 [65])).1 =
      (runPairOuts [true, false] (mkIterator T0 [65]) (mkIterator T0 [65])).2 :=
  (independent_iterators_deterministic T0 [65] [true, false]).2 rfl

end ICU4X
